import Mathlib

/-!
Verification of the WIP-commit consolidation engine of the
claude-code-git-hook repository.

The JavaScript sources are embedded shallowly:
* strings are handled through their character lists (`String.data`), with
  executable character-list functions mirroring the JavaScript string
  operations used by the code (`startsWith`, `trim`, `split`, `join`);
* the git repository is a state value (`Repo`): the branch history as the
  newest-first commit list that `git log` reports, plus an abstract snapshot
  of the uncommitted working-tree changes and the stash stack;
* each git subprocess invocation (`execGitCommand`) is a state transition
  returning `Except Repo Repo`; environmental failures (a corrupted ref, a
  stash-pop conflict) are injected through an `Oracle` of success flags,
  while impossibilities of the model itself (resolving `hash^` when `hash`
  is the root commit) fail regardless of the oracle.
-/

/-- Whitespace test covering the characters that occur in the outputs the
tool parses (JavaScript `\s` / `String.prototype.trim` on git output). -/
def isWsp (c : Char) : Bool :=
  c = ' ' || c = '\t' || c = '\n' || c = '\r'

/-- JavaScript `String.prototype.trim`: drop leading and trailing
whitespace, embedded on character lists. -/
def trimChars (l : List Char) : List Char :=
  ((l.dropWhile isWsp).reverse.dropWhile isWsp).reverse

/-- `charsLead p s` : the list `p` is a leading segment of `s`
(JavaScript `s.startsWith(p)` on character lists). -/
def charsLead : List Char → List Char → Bool
  | [], _ => true
  | _ :: _, [] => false
  | p :: ps, s :: ss => p == s && charsLead ps ss

/-- JavaScript `String.prototype.split` with a one-character separator. -/
def splitChar (sep : Char) : List Char → List (List Char)
  | [] => [[]]
  | c :: rest =>
    if c = sep then [] :: splitChar sep rest
    else
      match splitChar sep rest with
      | [] => [[c]]
      | g :: gs => (c :: g) :: gs

/-- JavaScript `Array.prototype.join` with a one-character separator. -/
def joinChar (sep : Char) : List (List Char) → List Char
  | [] => []
  | [g] => g
  | g :: gs => g ++ sep :: joinChar sep gs

/-- A commit as the tool sees it: the `{ hash, message, date }` objects
produced by `getRecentCommits` in git-utils. -/
structure Commit where
  hash : String
  message : String
  date : String
deriving DecidableEq, Repr

/-- The repository state the consolidation engine mutates:
`history` is the newest-first branch history (`git log` order),
`worktree` an abstract snapshot of the uncommitted changes
(`none` = clean working tree), `stash` the stash stack (newest first). -/
structure Repo where
  history : List Commit
  worktree : Option String
  stash : List String
deriving DecidableEq, Repr

/-- The hard-coded WIP marker literal used throughout the squash command. -/
def wipMarker : String := "[AUTO-WIP]"

/-- `commit.message.startsWith('[AUTO-WIP]')` — the sole WIP classifier
used by `findLastNonWipCommit` and the squash command's scan loop. -/
def isWip (c : Commit) : Bool :=
  charsLead wipMarker.data c.message.data

/-- `message.replace(/^\[AUTO-WIP\]\s*/, '')` : strip the marker and the
whitespace following it; leave messages without the marker unchanged. -/
def stripWipMarker (m : String) : String :=
  if charsLead wipMarker.data m.data then
    ⟨(m.data.drop wipMarker.data.length).dropWhile isWsp⟩
  else m

/-- git-utils `getGitStatus` staged-change test, line 62:
`/^[AMDR]/.test(status)` where `status` is the **trimmed** porcelain
output (`execGitCommand` trims).  The regex is not multiline: it looks
only at the first character of the whole trimmed output, and the class
omits `C`. -/
def getGitStatusHasStaged (raw : List Char) : Bool :=
  match trimChars raw with
  | [] => false
  | c :: _ => c = 'A' || c = 'M' || c = 'D' || c = 'R'

/-- Modelled from the spec: "a line beginning with a staged-change code
(`A`,`M`,`D`,`R`,`C` in the first column) sets `hasStagedChanges`". -/
def specLineHasStagedCode (line : List Char) : Bool :=
  match line with
  | [] => false
  | c :: _ => c = 'A' || c = 'M' || c = 'D' || c = 'R' || c = 'C'

/-- First-column test for the codes the implementation's regex actually
names (`A`,`M`,`D`,`R` — no `C`). -/
def lineStartsAMDR (line : List Char) : Bool :=
  match line with
  | [] => false
  | c :: _ => c = 'A' || c = 'M' || c = 'D' || c = 'R'

/-- git-utils `getRecentCommits` line rendering contract: the command is
`git log --format="%H|%s|%ai"`, so each line is
`hash ++ "|" ++ subject ++ "|" ++ date`. -/
def renderLogLine (c : Commit) : List Char :=
  c.hash.data ++ '|' :: c.message.data ++ '|' :: c.date.data

/-- git-utils `getRecentCommits` per-line parsing, lines 204-213:
`split('|')`, hash is the first field, date the last, the subject all
middle fields rejoined with `'|'`; every field is trimmed.  A line whose
split has fewer than two fields makes the JavaScript throw
(`undefined.trim()`), which the surrounding catch turns into an empty
result; that is the `none` case. -/
def parseLogLine (line : List Char) : Option Commit :=
  match splitChar '|' line with
  | hash :: p :: rest =>
    some { hash := ⟨trimChars hash⟩
           message := ⟨trimChars (joinChar '|' (p :: rest).dropLast)⟩
           date := ⟨trimChars ((p :: rest).getLastD [])⟩ }
  | _ => none

/-- git-utils `findLastNonWipCommit`: scan the 50 most recent commits and
return the first whose message does not carry the WIP marker. -/
def findLastNonWipCommit (history : List Commit) : Option Commit :=
  (history.take 50).find? (fun c => !(isWip c))

/-- The squash command's scan loop (config-cmd squash `main`): walk the
commits newest first; on the base commit's hash stop; otherwise collect
the commits carrying the WIP marker and *skip* the rest. -/
def collectWipLoop (baseCommit : Option Commit) : List Commit → List Commit
  | [] => []
  | c :: rest =>
    match baseCommit with
    | some b =>
      if c.hash = b.hash then []
      else if isWip c then c :: collectWipLoop (some b) rest
      else collectWipLoop (some b) rest
    | none =>
      if isWip c then c :: collectWipLoop none rest
      else collectWipLoop none rest

/-- The WIP run the squash command computes: `findLastNonWipCommit` for
the base, then the collect loop over `getRecentCommits(100)`. -/
def scanWipRun (history : List Commit) : List Commit :=
  collectWipLoop (findLastNonWipCommit history) (history.take 100)

/-- Success flags for the four git subprocess invocations
`performSimpleMerge` makes; `false` injects an environmental failure
(the `execSync` call throwing). -/
structure Oracle where
  stashPushOk : Bool
  resetOk : Bool
  commitOk : Bool
  stashPopOk : Bool
deriving DecidableEq, Repr

/-- The git commands `performSimpleMerge` attempts, in order, for tracing
which steps of the `Stashing → Resetting → Committing → Restoring`
state machine an execution reaches. -/
inductive GitOp where
  | stashPush
  | resetSoft
  | commitCmd
  | stashPop
deriving DecidableEq, Repr

/-- `getGitStatus().hasChanges` as `performSimpleMerge` reads it: the
porcelain status output is non-empty exactly when the working tree has
uncommitted changes. -/
def gitStatusHasChanges (r : Repo) : Bool :=
  r.worktree.isSome

/-- `git stash push -m "claude-code-splash-temp"`: shelve the working-tree
snapshot onto the stash stack.  On a clean tree git exits 0 and creates no
stash entry. -/
def gitStashPush (ok : Bool) (r : Repo) : Except Repo Repo :=
  if ok then
    match r.worktree with
    | some c => .ok { r with worktree := none, stash := c :: r.stash }
    | none => .ok r
  else .error r

/-- `git reset --soft <h>^`: move the branch pointer to the parent of the
commit named `h`.  The command fails when `h` is not in the history or is
the root commit (`h^` names nothing); a failed command leaves the
repository unchanged. -/
def gitResetSoftParentOf (ok : Bool) (h : String) (r : Repo) : Except Repo Repo :=
  if ok then
    match r.history.dropWhile (fun c => c.hash != h) with
    | _ :: parent :: older => .ok { r with history := parent :: older }
    | _ => .error r
  else .error r

/-- `git commit -m "<msg>"`: prepend a new commit carrying the given
message.  (The quote escaping `replace(/"/g, '\\"')` round-trips through
the shell, so the stored message is the argument itself.) -/
def gitCommit (ok : Bool) (newHash msg newDate : String) (r : Repo) : Except Repo Repo :=
  if ok then .ok { r with history := ⟨newHash, msg, newDate⟩ :: r.history }
  else .error r

/-- `git stash pop`: restore the newest stash entry into the working tree.
A conflict (injected through the oracle) leaves the entry in the stash,
which is how git behaves on a failed pop. -/
def gitStashPop (ok : Bool) (r : Repo) : Except Repo Repo :=
  if ok then
    match r.stash with
    | c :: rest => .ok { r with worktree := some c, stash := rest }
    | [] => .error r
  else .error r

/-- Outcome of `performSimpleMerge`: the returned boolean, the repository
state on return, and the git commands that were attempted. -/
structure MergeResult where
  success : Bool
  repo : Repo
  trace : List GitOp
deriving DecidableEq, Repr

/-- The phase of `performSimpleMerge` after the optional stash, covering
reset (line 494), commit (line 497) and the guarded stash pop
(lines 502-509).  A reset or commit failure propagates to the outer
`catch`, which returns `false` — the stash pop in between is *not*
executed on those paths.  A stash-pop failure is caught by the inner
`catch` and only warned about. -/
def mergeAfterStash (or : Oracle) (newHash newDate oldestHash commitMessage : String)
    (hasChanges : Bool) (r1 : Repo) (tr : List GitOp) : MergeResult :=
  match gitResetSoftParentOf or.resetOk oldestHash r1 with
  | .error r2 => ⟨false, r2, tr ++ [GitOp.resetSoft]⟩
  | .ok r2 =>
    match gitCommit or.commitOk newHash commitMessage newDate r2 with
    | .error r3 => ⟨false, r3, tr ++ [GitOp.resetSoft, GitOp.commitCmd]⟩
    | .ok r3 =>
      if hasChanges then
        match gitStashPop or.stashPopOk r3 with
        | .error r4 => ⟨true, r4, tr ++ [GitOp.resetSoft, GitOp.commitCmd, GitOp.stashPop]⟩
        | .ok r4 => ⟨true, r4, tr ++ [GitOp.resetSoft, GitOp.commitCmd, GitOp.stashPop]⟩
      else ⟨true, r3, tr ++ [GitOp.resetSoft, GitOp.commitCmd]⟩

/-- config-cmd `performSimpleMerge` (lines 476-516): empty run returns
`false`; otherwise take the oldest run commit's hash as the base, stash
when the tree is dirty, soft-reset to `base^`, commit the message, and
pop the stash when one was made.  `newHash`/`newDate` stand for the
content hash and timestamp git assigns to the new commit. -/
def performSimpleMerge (or : Oracle) (newHash newDate : String)
    (wipCommits : List Commit) (commitMessage : String) (r0 : Repo) : MergeResult :=
  match wipCommits.getLast? with
  | none => ⟨false, r0, []⟩
  | some oldest =>
    if gitStatusHasChanges r0 then
      match gitStashPush or.stashPushOk r0 with
      | .error r1 => ⟨false, r1, [GitOp.stashPush]⟩
      | .ok r1 => mergeAfterStash or newHash newDate oldest.hash commitMessage true r1 [GitOp.stashPush]
    else
      mergeAfterStash or newHash newDate oldest.hash commitMessage false r0 []

/-- Outcome of the squash command's `main`: the process exit code, the
final repository, whether the AI text-generation collaborator was
invoked, and the commit message that was used (if the run got that far). -/
structure MainResult where
  exitCode : Nat
  repo : Repo
  aiCalled : Bool
  usedMessage : Option String
  trace : List GitOp
deriving DecidableEq, Repr

/-- The repository `main` operates on: the current one when the directory
is a repository, otherwise the freshly initialized empty repository (the
working files remain, untracked). -/
def effectiveRepo (isRepo : Bool) (r : Repo) : Repo :=
  if isRepo then r else { history := [], worktree := r.worktree, stash := r.stash }

/-- The commit message `main` settles on (lines 585-590 together with
`generateMergedCommitMessage`): a truthy (non-empty) custom message is
used verbatim; otherwise a single-commit run yields its de-prefixed
message without any AI call; otherwise the collaborator's (or fallback)
text `generated` is used. -/
def squashChosenMessage (customMessage generated : String) (wipCommits : List Commit) : String :=
  if customMessage ≠ "" then customMessage
  else if wipCommits.length = 1 then stripWipMarker ((wipCommits.headD ⟨"", "", ""⟩).message)
  else generated

/-- The squash command's `main` (lines 522-607).  `isRepo`,
`userAgreesInit`, `initOk` model the repository check, the interactive
question and `git init`; refusal and a failed init exit 1.  Then: scan
the WIP run, exit 0 on an empty run, pick the message (the AI
collaborator is invoked only on the no-override path with at least two
commits), run `performSimpleMerge`, and exit 0 exactly on its success. -/
def squashMainProceed (or : Oracle)
    (newHash newDate generated customMessage : String) (r0 : Repo) : MainResult :=
  -- the part of main after the repository gate: scan, preview, exit 0 on an
  -- empty run, pick the message, merge, and exit by the merge's result

  let wipCommits := scanWipRun r0.history
  if wipCommits.isEmpty then ⟨0, r0, false, none, []⟩
  else
    let aiCalled := customMessage == "" && decide (2 ≤ wipCommits.length)
    let commitMessage := squashChosenMessage customMessage generated wipCommits
    let m := performSimpleMerge or newHash newDate wipCommits commitMessage r0
    ⟨if m.success then 0 else 1, m.repo, aiCalled, some commitMessage, m.trace⟩

def squashMain (isRepo userAgreesInit initOk : Bool) (or : Oracle)
    (newHash newDate generated customMessage : String) (r : Repo) : MainResult :=
  if !isRepo && !userAgreesInit then ⟨1, r, false, none, []⟩
  else if !isRepo && !initOk then ⟨1, r, false, none, []⟩
  else squashMainProceed or newHash newDate generated customMessage (effectiveRepo isRepo r)

/-- Auto-commit fallback message (auto-commit.js lines 121-135), the
AI-independent backstop: `"<prefix> <desc>"` from the user prompt
(truncated to 50 characters with an ellipsis) or
`"<prefix> 自动保存 <timestamp>"` when there is no prompt.  The fallback
returns directly from the catch, bypassing the length truncation of the
success path. -/
def autoCommitFallbackMessage (marker userPrompt timestamp : String) : String :=
  if userPrompt ≠ "" then
    (if 50 < userPrompt.data.length then marker ++ " " ++ ⟨userPrompt.data.take 50⟩ ++ "..."
     else marker ++ " " ++ userPrompt)
  else marker ++ " " ++ "自动保存 " ++ timestamp

/-! ### The WipRun invariant (spec §3) -/

/-- Every commit of the run carries the WIP marker. -/
def allWip (run : List Commit) : Prop := ∀ c ∈ run, isWip c = true

/-- Contiguity: whenever a commit of the run occurs in the branch history,
every commit strictly above it (towards HEAD) is a WIP commit — so no
non-WIP commit lies between two commits of the run, nor between the run
and HEAD. -/
def noNonWipAbove (history run : List Commit) : Prop :=
  ∀ (v : List Commit) (c : Commit) (w : List Commit),
    history = v ++ c :: w → c ∈ run → ∀ d ∈ v, isWip d = true

/-- The parent of a commit inside a newest-first history: the entry
following its (first) occurrence; `none` for the root commit and for a
commit that does not occur. -/
def parentInHistory (history : List Commit) (c : Commit) : Option Commit :=
  match history.dropWhile (fun x => x.hash != c.hash) with
  | _ :: rest => rest.head?
  | [] => none

/-- If the run is non-empty, its oldest commit's parent is the base commit
(`none` meaning the run extends to the root). -/
def oldestParentMatchesBase (history run : List Commit) (base : Option Commit) : Prop :=
  ∀ oldest, run.getLast? = some oldest → parentInHistory history oldest = base

/-- The WipRun invariant of spec §3. -/
def WipRunInvariant (history run : List Commit) (base : Option Commit) : Prop :=
  allWip run ∧ noNonWipAbove history run ∧ oldestParentMatchesBase history run base

/-! ### Helper lemmas -/

theorem charsLead_append_self : ∀ (p r : List Char), charsLead p (p ++ r) = true
  | [], _ => rfl
  | c :: ps, r => by simp [charsLead, charsLead_append_self ps r]

theorem charsLead_blocked_of_not_lead :
    ∀ (w m : List Char), (∀ c ∈ w, c ≠ ' ') → charsLead w m = false →
      ∀ r, charsLead w (m ++ ' ' :: r) = false := by
  intro w
  induction w with
  | nil => intro m _ hlead _; simp [charsLead] at hlead
  | cons a ws ih =>
    intro m hsp hlead r
    match m with
    | [] =>
      have ha : a ≠ ' ' := hsp a (by simp)
      simp [charsLead, ha]
    | b :: ms =>
      simp only [charsLead, List.cons_append, Bool.and_eq_false_iff] at hlead ⊢
      rcases hlead with h | h
      · exact Or.inl h
      · exact Or.inr (ih ms (fun c hc => hsp c (List.mem_cons_of_mem a hc)) h r)

theorem find?_eq_some_decomp {α : Type} (p : α → Bool) :
    ∀ (l : List α) (b : α), l.find? p = some b →
      ∃ w t, l = w ++ b :: t ∧ (∀ c ∈ w, p c = false) ∧ p b = true := by
  intro l
  induction l with
  | nil => intro b h; simp [List.find?] at h
  | cons a l ih =>
    intro b h
    by_cases hp : p a = true
    · rw [List.find?_cons_of_pos l hp] at h
      refine ⟨[], l, ?_, by intro c hc; simp at hc, ?_⟩
      · simp [Option.some.inj h]
      · rw [← Option.some.inj h]; exact hp
    · rw [List.find?_cons_of_neg l hp] at h
      obtain ⟨w, t, hl, hw, hb⟩ := ih b h
      refine ⟨a :: w, t, by simp [hl], ?_, hb⟩
      intro c hc
      rcases List.mem_cons.mp hc with rfl | hc
      · simpa using hp
      · exact hw c hc

theorem collectWipLoop_mem_isWip (base : Option Commit) :
    ∀ (l : List Commit) (c : Commit), c ∈ collectWipLoop base l → isWip c = true := by
  intro l
  induction l with
  | nil => intro c hc; simp [collectWipLoop] at hc
  | cons a l ih =>
    intro c hc
    match base with
    | some b =>
      simp only [collectWipLoop] at hc
      by_cases hb : a.hash = b.hash
      · simp [hb] at hc
      · simp only [if_neg hb] at hc
        by_cases hw : isWip a = true
        · rw [if_pos hw] at hc
          rcases List.mem_cons.mp hc with rfl | hc
          · exact hw
          · exact ih c hc
        · rw [if_neg hw] at hc; exact ih c hc
    | none =>
      simp only [collectWipLoop] at hc
      by_cases hw : isWip a = true
      · rw [if_pos hw] at hc
        rcases List.mem_cons.mp hc with rfl | hc
        · exact hw
        · exact ih c hc
      · rw [if_neg hw] at hc; exact ih c hc

theorem collectWipLoop_reaches_base (b : Commit) :
    ∀ (w rest : List Commit), (∀ c ∈ w, isWip c = true) →
      b.hash ∉ w.map (fun c => c.hash) →
      collectWipLoop (some b) (w ++ b :: rest) = w := by
  intro w
  induction w with
  | nil => intro rest _ _; simp [collectWipLoop]
  | cons a ws ih =>
    intro rest hw hm
    have hne : a.hash ≠ b.hash := by
      intro he; exact hm (by simp [he])
    have hwa : isWip a = true := hw a (by simp)
    simp only [List.cons_append, collectWipLoop, if_neg hne, if_pos hwa]
    rw [show ws.append (b :: rest) = ws ++ b :: rest from rfl,
      ih rest (fun c hc => hw c (List.mem_cons_of_mem a hc))
      (fun hmem => hm (List.mem_cons_of_mem _ hmem))]

theorem dropWhile_hash_eq (o : Commit) :
    ∀ (w t : List Commit), o.hash ∉ w.map (fun c => c.hash) →
      (w ++ o :: t).dropWhile (fun c => c.hash != o.hash) = o :: t := by
  intro w
  induction w with
  | nil =>
    intro t _
    simp [List.dropWhile]
  | cons a ws ih =>
    intro t hm
    have hne : a.hash ≠ o.hash := by
      intro he; exact hm (by simp [he])
    simp only [List.cons_append, List.dropWhile_cons, bne_iff_ne, ne_eq, hne,
      not_false_eq_true, if_true]
    exact ih t (fun hmem => hm (List.mem_cons_of_mem _ hmem))

theorem not_mem_map_of_nodup_decomp {α β : Type} (f : α → β) (v : List α) (c : α) (w : List α)
    (h : ((v ++ c :: w).map f).Nodup) : f c ∉ v.map f ∧ f c ∉ w.map f := by
  rw [List.map_append, List.map_cons] at h
  constructor
  · intro hmem
    exact (List.disjoint_of_nodup_append h) hmem (by simp)
  · intro hmem
    exact ((List.nodup_append.mp h).2.1).not_mem hmem

theorem first_occ_eq {α β : Type} (f : α → β) :
    ∀ (v w : List α) (c : α) (r r' : List α),
      v ++ c :: r = w ++ c :: r' → f c ∉ v.map f → f c ∉ w.map f → v = w := by
  intro v
  induction v with
  | nil =>
    intro w c r r' heq _ hw
    match w with
    | [] => rfl
    | x :: ws =>
      exfalso
      have hx : c = x := by simpa using congrArg (fun l => l.headD c) heq
      exact hw (by simp [← hx])
  | cons a vs ih =>
    intro w c r r' heq hv hw
    match w with
    | [] =>
      exfalso
      have hx : a = c := by simpa using congrArg (fun l => l.headD c) heq
      exact hv (by simp [hx])
    | x :: ws =>
      have hax : a = x := by simpa using congrArg (fun l => l.headD c) heq
      have htl : vs ++ c :: r = ws ++ c :: r' := by
        simpa using congrArg List.tail heq
      rw [hax, ih ws c r r' htl (fun hm => hv (List.mem_cons_of_mem _ hm))
        (fun hm => hw (List.mem_cons_of_mem _ hm))]

/-- Behaviour of `performSimpleMerge` when every git command succeeds and
the run sits directly above a base commit `b`: the run is replaced by the
single new commit and the working tree and stash end as they began. -/
theorem performSimpleMerge_allOk_eq (newHash newDate msg : String)
    (run : List Commit) (b : Commit) (rest : List Commit) (r : Repo)
    (hhist : r.history = run ++ b :: rest) (hne : run ≠ [])
    (hnodup : (r.history.map (fun c => c.hash)).Nodup) :
    performSimpleMerge ⟨true, true, true, true⟩ newHash newDate run msg r =
      ⟨true, ⟨⟨newHash, msg, newDate⟩ :: b :: rest, r.worktree, r.stash⟩,
        if r.worktree.isSome then
          [GitOp.stashPush, GitOp.resetSoft, GitOp.commitCmd, GitOp.stashPop]
        else [GitOp.resetSoft, GitOp.commitCmd]⟩ := by
  obtain ⟨w, oldest, hwo⟩ : ∃ w o, run = w ++ [o] :=
    ⟨run.dropLast, run.getLast hne, (List.dropLast_append_getLast hne).symm⟩
  have hl : run.getLast? = some oldest := by rw [hwo]; exact List.getLast?_concat w
  have hdecomp : r.history = w ++ oldest :: (b :: rest) := by
    rw [hhist, hwo]; simp
  have hmem : oldest.hash ∉ w.map (fun c => c.hash) :=
    (not_mem_map_of_nodup_decomp (fun c => c.hash) w oldest (b :: rest)
      (by rw [← hdecomp]; exact hnodup)).1
  have hkey : r.history.dropWhile (fun c => c.hash != oldest.hash) = oldest :: b :: rest := by
    rw [hdecomp]; exact dropWhile_hash_eq oldest w (b :: rest) hmem
  cases hw : r.worktree with
  | none =>
    simp [performSimpleMerge, hl, gitStatusHasChanges, hw, gitStashPush,
      mergeAfterStash, gitResetSoftParentOf, hkey, gitCommit]
  | some c =>
    simp [performSimpleMerge, hl, gitStatusHasChanges, hw, gitStashPush,
      mergeAfterStash, gitResetSoftParentOf, hkey, gitCommit, gitStashPop]

/-! ### Concrete repositories for witnesses and counterexamples -/

def c1Run : List Commit :=
  [⟨"a3", "[AUTO-WIP] add c", "2024-01-03"⟩,
   ⟨"a2", "[AUTO-WIP] add b", "2024-01-02"⟩,
   ⟨"a1", "[AUTO-WIP] add a", "2024-01-01"⟩]

def c1Base : Commit := ⟨"a0", "Initial", "2024-01-01"⟩

def c1Repo : Repo := ⟨c1Run ++ [c1Base], none, []⟩

def c2Run : List Commit :=
  [⟨"b1", "[AUTO-WIP] two", "2024-01-02"⟩,
   ⟨"b0", "[AUTO-WIP] one", "2024-01-01"⟩]

def c2Repo : Repo := ⟨c2Run, some "edits", []⟩

def c2GoodRun : List Commit :=
  [⟨"g2", "[AUTO-WIP] two", "2024-01-03"⟩,
   ⟨"g1", "[AUTO-WIP] one", "2024-01-02"⟩]

def c2GoodBase : Commit := ⟨"g0", "Initial", "2024-01-01"⟩

def c2GoodRepo : Repo := ⟨c2GoodRun ++ [c2GoodBase], some "wip edits", ["older entry"]⟩

def c3Run : List Commit :=
  [⟨"r1", "[AUTO-WIP] second", "2024-01-02"⟩,
   ⟨"r0", "[AUTO-WIP] root", "2024-01-01"⟩]

def c3Repo : Repo := ⟨c3Run, none, []⟩

def c6Run : List Commit :=
  [⟨"s2", "[AUTO-WIP] tweak", "2024-01-03"⟩,
   ⟨"s1", "[AUTO-WIP] start", "2024-01-02"⟩]

def c6Base : Commit := ⟨"s0", "Initial", "2024-01-01"⟩

def c6Repo : Repo := ⟨c6Run ++ [c6Base], some "local edits", []⟩

/-! ### Claim C1 -/

/-- C1: for a repository whose branch history has a run of N ≥ 2 WIP
commits directly above the last non-WIP commit `b`, running
`performSimpleMerge` on that run (with distinct hashes and every git
command succeeding) replaces the run with exactly one new commit sitting
where the run was, and the branch's commit count decreases by N − 1. -/
theorem squash_replaces_run_and_shrinks_history (newHash newDate msg : String)
    (run : List Commit) (b : Commit) (rest : List Commit) (r : Repo)
    (hhist : r.history = run ++ b :: rest)
    (hN : 2 ≤ run.length)
    (hwip : ∀ c ∈ run, isWip c = true)
    (hbase : isWip b = false)
    (hnodup : (r.history.map (fun c => c.hash)).Nodup) :
    (performSimpleMerge ⟨true, true, true, true⟩ newHash newDate run msg r).success = true ∧
    (performSimpleMerge ⟨true, true, true, true⟩ newHash newDate run msg r).repo.history
      = ⟨newHash, msg, newDate⟩ :: b :: rest ∧
    (performSimpleMerge ⟨true, true, true, true⟩ newHash newDate run msg r).repo.history.length
      + (run.length - 1) = r.history.length := by
  have hne : run ≠ [] := by intro h; rw [h] at hN; simp at hN
  rw [performSimpleMerge_allOk_eq newHash newDate msg run b rest r hhist hne hnodup]
  refine ⟨rfl, rfl, ?_⟩
  rw [hhist]
  simp only [List.length_cons, List.length_append]
  omega

/-- C1 witness: a three-commit WIP run above `Initial` collapses to
`[new, Initial]`, shrinking the history by 2. -/
theorem squash_replaces_run_and_shrinks_history_witness :
    (performSimpleMerge ⟨true, true, true, true⟩ "n1" "2024-01-04" c1Run "feature X" c1Repo).success = true ∧
    (performSimpleMerge ⟨true, true, true, true⟩ "n1" "2024-01-04" c1Run "feature X" c1Repo).repo.history
      = ⟨"n1", "feature X", "2024-01-04"⟩ :: c1Base :: [] ∧
    (performSimpleMerge ⟨true, true, true, true⟩ "n1" "2024-01-04" c1Run "feature X" c1Repo).repo.history.length
      + (c1Run.length - 1) = c1Repo.history.length :=
  squash_replaces_run_and_shrinks_history "n1" "2024-01-04" "feature X" c1Run c1Base [] c1Repo
    rfl (by decide) (by decide) (by decide) (by decide)

/-! ### Claim C2 -/

/-- C2 counterexample: a repository with uncommitted changes whose WIP run
extends to the root commit.  The stash step runs, the soft reset then
fails (`r0^` does not exist), and the outer catch returns `false` without
ever reaching the stash-restoration step: the uncommitted changes are
left in the stash, not in the working tree. -/
theorem stash_not_restored_on_failed_reset_cex :
    (performSimpleMerge ⟨true, true, true, true⟩ "n2" "2024-01-03" c2Run "msg" c2Repo).success = false ∧
    GitOp.stashPush ∈ (performSimpleMerge ⟨true, true, true, true⟩ "n2" "2024-01-03" c2Run "msg" c2Repo).trace ∧
    GitOp.stashPop ∉ (performSimpleMerge ⟨true, true, true, true⟩ "n2" "2024-01-03" c2Run "msg" c2Repo).trace ∧
    (performSimpleMerge ⟨true, true, true, true⟩ "n2" "2024-01-03" c2Run "msg" c2Repo).repo.worktree = none ∧
    (performSimpleMerge ⟨true, true, true, true⟩ "n2" "2024-01-03" c2Run "msg" c2Repo).repo.stash = ["edits"] := by
  decide

/-- C2 amended: the working-tree snapshot is restored (same snapshot, and
the stash stack back to its original state) on every execution where the
reset and the commit succeed; the restoration step is reached on those
paths.  On a reset or commit failure after stashing (see the
counterexample) the function returns without restoring. -/
theorem stash_restored_when_reset_and_commit_succeed (newHash newDate msg : String)
    (run : List Commit) (b : Commit) (rest : List Commit) (r : Repo) (c : String)
    (hwt : r.worktree = some c)
    (hhist : r.history = run ++ b :: rest) (hne : run ≠ [])
    (hnodup : (r.history.map (fun x => x.hash)).Nodup) :
    (performSimpleMerge ⟨true, true, true, true⟩ newHash newDate run msg r).repo.worktree = some c ∧
    (performSimpleMerge ⟨true, true, true, true⟩ newHash newDate run msg r).repo.stash = r.stash ∧
    GitOp.stashPop ∈ (performSimpleMerge ⟨true, true, true, true⟩ newHash newDate run msg r).trace := by
  rw [performSimpleMerge_allOk_eq newHash newDate msg run b rest r hhist hne hnodup]
  refine ⟨hwt, rfl, ?_⟩
  simp [hwt]

/-- C2 amended witness: a dirty two-commit run above a base; the snapshot
comes back to the working tree and the pre-existing stash entry stays. -/
theorem stash_restored_when_reset_and_commit_succeed_witness :
    (performSimpleMerge ⟨true, true, true, true⟩ "n2g" "2024-01-04" c2GoodRun "msg" c2GoodRepo).repo.worktree
      = some "wip edits" ∧
    (performSimpleMerge ⟨true, true, true, true⟩ "n2g" "2024-01-04" c2GoodRun "msg" c2GoodRepo).repo.stash
      = c2GoodRepo.stash ∧
    GitOp.stashPop ∈ (performSimpleMerge ⟨true, true, true, true⟩ "n2g" "2024-01-04" c2GoodRun "msg" c2GoodRepo).trace :=
  stash_restored_when_reset_and_commit_succeed "n2g" "2024-01-04" "msg" c2GoodRun c2GoodBase []
    c2GoodRepo "wip edits" rfl rfl (by decide) (by decide)

/-! ### Claim C3 -/

/-- C3 counterexample: a branch consisting solely of two WIP commits (the
run extends to the root).  The claim says consolidation still computes a
valid reset target and succeeds; in fact `performSimpleMerge` builds the
ref `r0^`, which does not resolve, the reset fails and the function
returns `false` with the repository unchanged. -/
theorem root_run_merge_fails_cex :
    (performSimpleMerge ⟨true, true, true, true⟩ "n3" "2024-01-03" c3Run "msg" c3Repo).success = false ∧
    (performSimpleMerge ⟨true, true, true, true⟩ "n3" "2024-01-03" c3Run "msg" c3Repo).repo = c3Repo := by
  decide

/-- C3 amended: when the WIP run extends back to the repository's root
commit (the branch history is exactly the run), the reset target —
the parent of the oldest run commit — does not exist; the soft reset
fails whatever the oracle says, `performSimpleMerge` returns `false`, and
the branch history is left unchanged. -/
theorem root_run_merge_fails (or : Oracle) (newHash newDate msg : String)
    (run : List Commit) (r : Repo)
    (hhist : r.history = run) (hne : run ≠ [])
    (hnodup : (r.history.map (fun c => c.hash)).Nodup) :
    (performSimpleMerge or newHash newDate run msg r).success = false ∧
    (performSimpleMerge or newHash newDate run msg r).repo.history = r.history := by
  obtain ⟨w, oldest, hwo⟩ : ∃ w o, run = w ++ [o] :=
    ⟨run.dropLast, run.getLast hne, (List.dropLast_append_getLast hne).symm⟩
  have hl : run.getLast? = some oldest := by rw [hwo]; exact List.getLast?_concat w
  have hdecomp : r.history = w ++ oldest :: ([] : List Commit) := by rw [hhist, hwo]
  have hmem : oldest.hash ∉ w.map (fun c => c.hash) :=
    (not_mem_map_of_nodup_decomp (fun c => c.hash) w oldest []
      (by rw [← hdecomp]; exact hnodup)).1
  have hkey : r.history.dropWhile (fun c => c.hash != oldest.hash) = [oldest] := by
    rw [hdecomp]; exact dropWhile_hash_eq oldest w [] hmem
  cases hw : r.worktree with
  | none =>
    cases hro : or.resetOk with
    | false =>
      simp [performSimpleMerge, hl, gitStatusHasChanges, hw, mergeAfterStash,
        gitResetSoftParentOf, hro]
    | true =>
      simp [performSimpleMerge, hl, gitStatusHasChanges, hw, mergeAfterStash,
        gitResetSoftParentOf, hro, hkey]
  | some c =>
    cases hsp : or.stashPushOk with
    | false =>
      simp [performSimpleMerge, hl, gitStatusHasChanges, hw, gitStashPush, hsp]
    | true =>
      cases hro : or.resetOk with
      | false =>
        simp [performSimpleMerge, hl, gitStatusHasChanges, hw, gitStashPush, hsp,
          mergeAfterStash, gitResetSoftParentOf, hro]
      | true =>
        simp [performSimpleMerge, hl, gitStatusHasChanges, hw, gitStashPush, hsp,
          mergeAfterStash, gitResetSoftParentOf, hro, hkey]

/-- C3 amended witness: the concrete root-extending run, with every git
command permitted to succeed. -/
theorem root_run_merge_fails_witness :
    (performSimpleMerge ⟨true, true, true, true⟩ "n3w" "2024-01-04" c3Run "other msg" c3Repo).success = false ∧
    (performSimpleMerge ⟨true, true, true, true⟩ "n3w" "2024-01-04" c3Run "other msg" c3Repo).repo.history
      = c3Repo.history :=
  root_run_merge_fails ⟨true, true, true, true⟩ "n3w" "2024-01-04" "other msg" c3Run c3Repo
    rfl (by decide) (by decide)

/-! ### Claim C6 -/

/-- C6: when the soft reset and the new commit succeed but the stash pop
fails, `performSimpleMerge` still returns `true`: the restoration step is
reached, its failure is only warned about, and the new commit stays in
place. -/
theorem stash_pop_failure_keeps_success (newHash newDate msg : String)
    (run : List Commit) (b : Commit) (rest : List Commit) (r : Repo) (c : String)
    (hwt : r.worktree = some c)
    (hhist : r.history = run ++ b :: rest) (hne : run ≠ [])
    (hnodup : (r.history.map (fun x => x.hash)).Nodup) :
    (performSimpleMerge ⟨true, true, true, false⟩ newHash newDate run msg r).success = true ∧
    (performSimpleMerge ⟨true, true, true, false⟩ newHash newDate run msg r).repo.history
      = ⟨newHash, msg, newDate⟩ :: b :: rest ∧
    GitOp.stashPop ∈ (performSimpleMerge ⟨true, true, true, false⟩ newHash newDate run msg r).trace := by
  obtain ⟨w, oldest, hwo⟩ : ∃ w o, run = w ++ [o] :=
    ⟨run.dropLast, run.getLast hne, (List.dropLast_append_getLast hne).symm⟩
  have hl : run.getLast? = some oldest := by rw [hwo]; exact List.getLast?_concat w
  have hdecomp : r.history = w ++ oldest :: (b :: rest) := by
    rw [hhist, hwo]; simp
  have hmem : oldest.hash ∉ w.map (fun x => x.hash) :=
    (not_mem_map_of_nodup_decomp (fun x => x.hash) w oldest (b :: rest)
      (by rw [← hdecomp]; exact hnodup)).1
  have hkey : r.history.dropWhile (fun x => x.hash != oldest.hash) = oldest :: b :: rest := by
    rw [hdecomp]; exact dropWhile_hash_eq oldest w (b :: rest) hmem
  simp [performSimpleMerge, hl, gitStatusHasChanges, hwt, gitStashPush,
    mergeAfterStash, gitResetSoftParentOf, hkey, gitCommit, gitStashPop]

/-- C6 witness: a dirty repository with a two-commit run; the stash pop is
made to fail, the merge still reports success with the squashed commit on
top. -/
theorem stash_pop_failure_keeps_success_witness :
    (performSimpleMerge ⟨true, true, true, false⟩ "n6" "2024-01-04" c6Run "clean up" c6Repo).success = true ∧
    (performSimpleMerge ⟨true, true, true, false⟩ "n6" "2024-01-04" c6Run "clean up" c6Repo).repo.history
      = ⟨"n6", "clean up", "2024-01-04"⟩ :: c6Base :: [] ∧
    GitOp.stashPop ∈ (performSimpleMerge ⟨true, true, true, false⟩ "n6" "2024-01-04" c6Run "clean up" c6Repo).trace :=
  stash_pop_failure_keeps_success "n6" "2024-01-04" "clean up" c6Run c6Base [] c6Repo
    "local edits" rfl rfl (by decide) (by decide)

/-! ### Claim C4 -/

def c4WipBlock : List Commit :=
  (List.range 50).map (fun i => ⟨"w" ++ toString i, "[AUTO-WIP] step", "2024-01-01"⟩)

def c4BoundaryCommit : Commit := ⟨"hbase", "real change", "2024-01-01"⟩

def c4DeepWip : Commit := ⟨"hdeep", "[AUTO-WIP] old", "2024-01-01"⟩

/-- 50 WIP commits atop a non-WIP commit atop one more WIP commit:
`findLastNonWipCommit` scans only 50 commits and returns null, while the
collect loop walks 100 and *skips* the non-WIP boundary. -/
def c4History : List Commit := c4WipBlock ++ [c4BoundaryCommit, c4DeepWip]

/-- C4 counterexample: on `c4History` the scanner's run contains
`c4DeepWip` although the non-WIP `c4BoundaryCommit` sits between it and
the rest of the run — the produced WipRun is not contiguous, refuting the
invariant. -/
theorem scanner_breaks_invariant_cex :
    ¬ WipRunInvariant c4History (scanWipRun c4History) (findLastNonWipCommit c4History) := by
  intro hinv
  obtain ⟨-, hno, -⟩ := hinv
  have hbad : isWip c4BoundaryCommit = true := by
    refine hno (c4WipBlock ++ [c4BoundaryCommit]) c4DeepWip [] ?_ ?_ c4BoundaryCommit ?_
    · simp [c4History]
    · decide
    · simp
  exact absurd hbad (by decide)

/-- C4 amended: whenever `findLastNonWipCommit` actually finds a non-WIP
base commit `b` (within its 50-commit window) and the history's hashes
are distinct, the run the squash command's scanner produces satisfies the
WipRun invariant: all its commits are WIP, no non-WIP commit lies above
any of them, and the oldest run commit's parent is `b`.  (The invariant
can fail only on the `baseCommit = null` path, as the counterexample
shows.) -/
theorem scanner_invariant_when_base_found (history : List Commit) (b : Commit)
    (hnodup : (history.map (fun c => c.hash)).Nodup)
    (hfind : findLastNonWipCommit history = some b) :
    WipRunInvariant history (scanWipRun history) (some b) := by
  obtain ⟨w, t', ht, hwf, hb⟩ :=
    find?_eq_some_decomp (fun c => !(isWip c)) (history.take 50) b hfind
  have hwip : ∀ c ∈ w, isWip c = true := by
    intro c hc
    have := hwf c hc
    simpa using this
  obtain ⟨t, hhist⟩ : ∃ t, history = w ++ b :: t :=
    ⟨t' ++ history.drop 50, by
      conv_lhs => rw [← List.take_append_drop 50 history]
      rw [ht]
      simp⟩
  have hwlen : w.length ≤ 49 := by
    have h1 : (history.take 50).length ≤ 50 := by
      simpa using List.length_take_le 50 history
    rw [ht] at h1
    simp [List.length_append] at h1
    omega
  have htake100 : history.take 100
      = w ++ b :: (t.take (99 - w.length)) := by
    conv_lhs => rw [hhist]
    rw [List.take_append_eq_append_take, List.take_of_length_le (by omega)]
    have h100 : 100 - w.length = (99 - w.length) + 1 := by omega
    rw [h100, List.take_succ_cons]
  have hbm : b.hash ∉ w.map (fun c => c.hash) :=
    (not_mem_map_of_nodup_decomp (fun c => c.hash) w b t
      (by rw [← hhist]; exact hnodup)).1
  have hrun : scanWipRun history = w := by
    rw [scanWipRun, hfind, htake100]
    exact collectWipLoop_reaches_base b w _ hwip hbm
  rw [hrun]
  refine ⟨hwip, ?_, ?_⟩
  · intro v c w' heq hc d hd
    obtain ⟨w₁, w₂, hw12⟩ := List.append_of_mem hc
    have hist2 : history = w₁ ++ c :: (w₂ ++ b :: t) := by
      rw [hhist, hw12]
      simp
    have hcv : c.hash ∉ v.map (fun x => x.hash) :=
      (not_mem_map_of_nodup_decomp (fun x => x.hash) v c w'
        (by rw [← heq]; exact hnodup)).1
    have hcw : c.hash ∉ w₁.map (fun x => x.hash) :=
      (not_mem_map_of_nodup_decomp (fun x => x.hash) w₁ c (w₂ ++ b :: t)
        (by rw [← hist2]; exact hnodup)).1
    have hveq : v = w₁ :=
      first_occ_eq (fun x => x.hash) v w₁ c w' (w₂ ++ b :: t)
        (heq.symm.trans hist2) hcv hcw
    have hdw : d ∈ w := by
      rw [hw12]
      exact List.mem_append_left _ (hveq ▸ hd)
    exact hwip d hdw
  · intro oldest hlast
    have hne : w ≠ [] := by
      intro h; rw [h] at hlast; simp at hlast
    have holdest : w.getLast hne = oldest := by
      have := List.getLast?_eq_getLast_of_ne_nil hne
      rw [hlast] at this
      exact (Option.some.inj this).symm
    have hwdecomp : w = w.dropLast ++ [oldest] := by
      rw [← holdest]
      exact (List.dropLast_append_getLast hne).symm
    have hist3 : history = w.dropLast ++ oldest :: (b :: t) := by
      rw [hhist]
      conv_lhs => rw [hwdecomp]
      simp
    have hom : oldest.hash ∉ w.dropLast.map (fun x => x.hash) :=
      (not_mem_map_of_nodup_decomp (fun x => x.hash) w.dropLast oldest
        (b :: t) (by rw [← hist3]; exact hnodup)).1
    have hkey : history.dropWhile (fun x => x.hash != oldest.hash)
        = oldest :: (b :: t) := by
      rw [hist3]
      exact dropWhile_hash_eq oldest w.dropLast _ hom
    simp [parentInHistory, hkey]

def c4SmallHistory : List Commit :=
  [⟨"k2", "[AUTO-WIP] b", "2024-01-03"⟩,
   ⟨"k1", "[AUTO-WIP] a", "2024-01-02"⟩,
   ⟨"k0", "Initial", "2024-01-01"⟩]

/-- C4 amended witness: on a three-commit history with a found base the
scanner's run satisfies the invariant. -/
theorem scanner_invariant_when_base_found_witness :
    WipRunInvariant c4SmallHistory (scanWipRun c4SmallHistory) (some ⟨"k0", "Initial", "2024-01-01"⟩) :=
  scanner_invariant_when_base_found c4SmallHistory ⟨"k0", "Initial", "2024-01-01"⟩
    (by decide) (by decide)

/-! ### Claim C5 -/

def c5Run : List Commit :=
  [⟨"m2", "[AUTO-WIP] second", "2024-01-03"⟩,
   ⟨"m1", "[AUTO-WIP] first", "2024-01-02"⟩]

def c5Base : Commit := ⟨"m0", "Initial", "2024-01-01"⟩

def c5Repo : Repo := ⟨c5Run ++ [c5Base], none, []⟩

/-- C5: with an override message that is non-empty after trimming, the
squash command makes no AI text-generation call, records the override as
the message it used, and (when the consolidation goes through) the new
commit's message equals the override exactly. -/
theorem override_bypasses_ai_and_is_verbatim (newHash newDate generated customMessage : String)
    (run : List Commit) (b : Commit) (rest : List Commit) (r : Repo)
    (hcm : trimChars customMessage.data ≠ [])
    (hscan : scanWipRun r.history = run)
    (hhist : r.history = run ++ b :: rest) (hne : run ≠ [])
    (hnodup : (r.history.map (fun c => c.hash)).Nodup) :
    (squashMain true true true ⟨true, true, true, true⟩ newHash newDate generated customMessage r).aiCalled = false ∧
    (squashMain true true true ⟨true, true, true, true⟩ newHash newDate generated customMessage r).usedMessage = some customMessage ∧
    (squashMain true true true ⟨true, true, true, true⟩ newHash newDate generated customMessage r).repo.history
      = ⟨newHash, customMessage, newDate⟩ :: b :: rest := by
  have hcmne : customMessage ≠ "" := by
    intro h
    apply hcm
    rw [h]
    rfl
  have hie : (scanWipRun r.history).isEmpty = false := by
    rw [hscan]
    cases run with
    | nil => exact absurd rfl hne
    | cons a l => rfl
  have hie' : run.isEmpty = false := by rw [← hscan]; exact hie
  have hmerge := performSimpleMerge_allOk_eq newHash newDate customMessage run b rest r hhist hne hnodup
  have hbeq : (customMessage == "") = false := beq_eq_false_iff_ne.mpr hcmne
  have hmain : squashMain true true true ⟨true, true, true, true⟩ newHash newDate generated customMessage r
      = squashMainProceed ⟨true, true, true, true⟩ newHash newDate generated customMessage r := rfl
  rw [hmain]
  simp [squashMainProceed, hscan, hie', squashChosenMessage, hcmne, hbeq, hmerge]

/-- C5 witness: override "feature X" on a two-commit run: no AI call, and
the squashed commit carries exactly "feature X". -/
theorem override_bypasses_ai_and_is_verbatim_witness :
    (squashMain true true true ⟨true, true, true, true⟩ "n5" "2024-01-04" "generated text" "feature X" c5Repo).aiCalled = false ∧
    (squashMain true true true ⟨true, true, true, true⟩ "n5" "2024-01-04" "generated text" "feature X" c5Repo).usedMessage = some "feature X" ∧
    (squashMain true true true ⟨true, true, true, true⟩ "n5" "2024-01-04" "generated text" "feature X" c5Repo).repo.history
      = ⟨"n5", "feature X", "2024-01-04"⟩ :: c5Base :: [] :=
  override_bypasses_ai_and_is_verbatim "n5" "2024-01-04" "generated text" "feature X"
    c5Run c5Base [] c5Repo (by decide) (by decide) rfl (by decide) (by decide)

/-! ### Claim C7 -/

/-- Exit behaviour of the post-gate phase: 0 exactly on an empty run or a
successful merge, and never anything other than 0 or 1. -/
theorem squashMainProceed_exit (or : Oracle) (nh nd g cm : String) (r0 : Repo) :
    ((squashMainProceed or nh nd g cm r0).exitCode = 0 ↔
      (scanWipRun r0.history = [] ∨
       (performSimpleMerge or nh nd (scanWipRun r0.history)
         (squashChosenMessage cm g (scanWipRun r0.history)) r0).success = true)) ∧
    ((squashMainProceed or nh nd g cm r0).exitCode = 0 ∨
     (squashMainProceed or nh nd g cm r0).exitCode = 1) := by
  by_cases he : scanWipRun r0.history = []
  · simp [squashMainProceed, he]
  · have hie : (scanWipRun r0.history).isEmpty = false := by
      cases h : scanWipRun r0.history with
      | nil => exact absurd h he
      | cons a l => rfl
    cases hs : (performSimpleMerge or nh nd (scanWipRun r0.history)
        (squashChosenMessage cm g (scanWipRun r0.history)) r0).success with
    | false => simp [squashMainProceed, hie, hs, he]
    | true => simp [squashMainProceed, hie, hs]

/-- C7: the squash command's exit code is always 0 or 1, and it is 0
exactly when the command had a repository to work on (the directory was
one, or the user agreed to initialize and `git init` succeeded) and
either the scanned WIP run was empty (nothing to do) or the consolidation
succeeded.  In particular a refusal to initialize exits 1, and any
consolidation failure exits 1. -/
theorem squashMain_exit_code (isRepo agree initOk : Bool) (or : Oracle)
    (newHash newDate generated customMessage : String) (r : Repo) :
    ((squashMain isRepo agree initOk or newHash newDate generated customMessage r).exitCode = 0 ∨
     (squashMain isRepo agree initOk or newHash newDate generated customMessage r).exitCode = 1) ∧
    ((squashMain isRepo agree initOk or newHash newDate generated customMessage r).exitCode = 0 ↔
      ((isRepo = true ∨ (agree = true ∧ initOk = true)) ∧
       (scanWipRun (effectiveRepo isRepo r).history = [] ∨
        (performSimpleMerge or newHash newDate (scanWipRun (effectiveRepo isRepo r).history)
          (squashChosenMessage customMessage generated (scanWipRun (effectiveRepo isRepo r).history))
          (effectiveRepo isRepo r)).success = true))) := by
  obtain ⟨hiff, hor⟩ := squashMainProceed_exit or newHash newDate generated customMessage (effectiveRepo isRepo r)
  cases isRepo with
  | false =>
    cases agree with
    | false => simp [squashMain]
    | true =>
      cases initOk with
      | false => simp [squashMain]
      | true =>
        constructor
        · simpa [squashMain] using hor
        · simp only [squashMain, Bool.not_false, Bool.not_true, Bool.and_false, Bool.false_and]
          simp only [Bool.false_eq_true, if_false]
          rw [hiff]
          simp
  | true =>
    constructor
    · simpa [squashMain] using hor
    · simp only [squashMain, Bool.not_true, Bool.false_and, Bool.false_eq_true, if_false]
      rw [hiff]
      simp

/-! ### Claim C8 -/

theorem splitChar_ne_nil (sep : Char) : ∀ (l : List Char), splitChar sep l ≠ [] := by
  intro l
  cases l with
  | nil => simp [splitChar]
  | cons c rest =>
    by_cases h : c = sep
    · simp [splitChar, h]
    · simp only [splitChar, if_neg h]
      cases hs : splitChar sep rest with
      | nil => simp
      | cons g gs => simp

theorem dropWhile_head_not (p : Char → Bool) :
    ∀ (l : List Char) (c : Char) (t : List Char), l.dropWhile p = c :: t → p c = false := by
  intro l
  induction l with
  | nil => intro c t h; simp [List.dropWhile] at h
  | cons a rest ih =>
    intro c t h
    by_cases hp : p a = true
    · rw [List.dropWhile_cons, if_pos hp] at h
      exact ih c t h
    · rw [List.dropWhile_cons, if_neg hp] at h
      injection h with h1 h2
      rw [← h1]
      simpa using hp

theorem dropWhile_getLast?_eq (p : Char → Bool) :
    ∀ (l : List Char), l.dropWhile p ≠ [] → (l.dropWhile p).getLast? = l.getLast? := by
  intro l
  induction l with
  | nil => intro h; simp [List.dropWhile] at h
  | cons a rest ih =>
    intro h
    by_cases hp : p a = true
    · rw [List.dropWhile_cons, if_pos hp] at h ⊢
      rw [ih h]
      have hrne : rest ≠ [] := by
        intro hr; rw [hr] at h; simp [List.dropWhile] at h
      cases rest with
      | nil => exact absurd rfl hrne
      | cons b t => exact List.getLast?_cons_cons.symm
    · rw [List.dropWhile_cons, if_neg hp]

theorem trimChars_head_not_wsp (raw : List Char) (c : Char) (t : List Char)
    (h : trimChars raw = c :: t) : isWsp c = false := by
  have hz : (raw.dropWhile isWsp).reverse.dropWhile isWsp = t.reverse ++ [c] := by
    rw [trimChars] at h
    have h2 := congrArg List.reverse h
    simpa using h2
  have hne : (raw.dropWhile isWsp).reverse.dropWhile isWsp ≠ [] := by
    rw [hz]; simp
  have hlast : ((raw.dropWhile isWsp).reverse.dropWhile isWsp).getLast? = some c := by
    rw [hz]; exact List.getLast?_concat _
  rw [dropWhile_getLast?_eq isWsp _ hne, List.getLast?_reverse] at hlast
  cases hy : raw.dropWhile isWsp with
  | nil => rw [hy] at hlast; simp at hlast
  | cons d ys =>
    rw [hy] at hlast
    have hdc : d = c := by simpa using hlast
    rw [← hdc]
    exact dropWhile_head_not isWsp raw d ys hy

/-- C8 counterexample: porcelain output whose first line is untracked
(`??`) and whose second line is a staged addition; the claim's line-wise
reading reports staged changes, but the implementation's start-of-string
regex reports none.  A copied-file line (`C`) is likewise claimed staged
but rejected by the regex's `[AMDR]` class. -/
theorem hasStaged_misses_lines_and_C_cex :
    getGitStatusHasStaged ("?? notes.txt\nA  new.js").data = false ∧
    (splitChar '\n' ("?? notes.txt\nA  new.js").data).any specLineHasStagedCode = true ∧
    getGitStatusHasStaged ("C  lib.js").data = false ∧
    specLineHasStagedCode ("C  lib.js").data = true := by
  decide

/-- C8 amended: `hasStagedChanges` is true exactly when the *first line*
of the trimmed porcelain output begins with one of `A`, `M`, `D`, `R` —
the start-of-string regex never sees later lines and its class omits
`C`. -/
theorem hasStaged_iff_first_line (raw : List Char) :
    getGitStatusHasStaged raw = lineStartsAMDR ((splitChar '\n' (trimChars raw)).headD []) := by
  cases h : trimChars raw with
  | nil => simp [getGitStatusHasStaged, h, splitChar, lineStartsAMDR]
  | cons c t =>
    have hcw : isWsp c = false := trimChars_head_not_wsp raw c t h
    have hcn : c ≠ '\n' := by
      intro hc; rw [hc] at hcw; simp [isWsp] at hcw
    obtain ⟨g, gs, hg⟩ : ∃ g gs, splitChar '\n' t = g :: gs := by
      cases hs : splitChar '\n' t with
      | nil => exact absurd hs (splitChar_ne_nil '\n' t)
      | cons g gs => exact ⟨g, gs, rfl⟩
    have hsp : splitChar '\n' (c :: t) = (c :: g) :: gs := by
      simp only [splitChar, if_neg hcn, hg]
    simp [getGitStatusHasStaged, h, hsp, lineStartsAMDR]

/-! ### Claim C9 -/

def c9Marker : String := "[AUTO-WIP]2"

def c9Message : String := autoCommitFallbackMessage c9Marker "fix bug" "2024-01-01 10:00"

def c9Commit : Commit := ⟨"x1", c9Message, "2024-01-02"⟩

def c9History : List Commit := [c9Commit, ⟨"x0", "Initial", "2024-01-01"⟩]

/-- C9 counterexample: the configured prefix `[AUTO-WIP]2` is a value
other than the literal `[AUTO-WIP]`, yet the auto-commit message it
produces still starts with the literal, is classified WIP by the squash
scanner, and lands in the scanner's run — such commits ARE consolidated,
contrary to the claim's "never". -/
theorem extended_marker_still_consolidated_cex :
    c9Marker ≠ wipMarker ∧
    charsLead c9Marker.data c9Message.data = true ∧
    isWip c9Commit = true ∧
    c9Commit ∈ scanWipRun c9History := by
  decide

/-- C9 amended: for every configured `autoCommit.prefix` that does not
itself begin with the literal `[AUTO-WIP]`, the auto-commit fallback
message carries the configured prefix, yet the squash side still
classifies by the hard-coded literal: such a commit is non-WIP, hence a
boundary, and never appears in any run the scan loop collects — it is
never consolidated.  (Prefixes extending the literal, as in the
counterexample, are still classified WIP.) -/
theorem custom_marker_commits_are_boundaries (marker userPrompt ts hash date : String)
    (hm : charsLead wipMarker.data marker.data = false) :
    charsLead marker.data (autoCommitFallbackMessage marker userPrompt ts).data = true ∧
    isWip ⟨hash, autoCommitFallbackMessage marker userPrompt ts, date⟩ = false ∧
    ∀ (base : Option Commit) (l : List Commit),
      (⟨hash, autoCommitFallbackMessage marker userPrompt ts, date⟩ : Commit) ∉ collectWipLoop base l := by
  obtain ⟨Y, hY⟩ : ∃ Y, (autoCommitFallbackMessage marker userPrompt ts).data
      = marker.data ++ ' ' :: Y := by
    unfold autoCommitFallbackMessage
    by_cases h1 : userPrompt ≠ ""
    · rw [if_pos h1]
      by_cases h2 : 50 < userPrompt.data.length
      · rw [if_pos h2]
        exact ⟨userPrompt.data.take 50 ++ "...".data, by simp [String.data_append]⟩
      · rw [if_neg h2]
        exact ⟨userPrompt.data, by simp [String.data_append]⟩
    · rw [if_neg h1]
      exact ⟨("自动保存 " ++ ts).data, by simp [String.data_append]⟩
  have hsp : ∀ c ∈ wipMarker.data, c ≠ ' ' := by decide
  have hnotwip : isWip ⟨hash, autoCommitFallbackMessage marker userPrompt ts, date⟩ = false := by
    show charsLead wipMarker.data (autoCommitFallbackMessage marker userPrompt ts).data = false
    rw [hY]
    exact charsLead_blocked_of_not_lead wipMarker.data marker.data hsp hm Y
  refine ⟨?_, hnotwip, ?_⟩
  · rw [hY]
    exact charsLead_append_self marker.data (' ' :: Y)
  · intro base l hmem
    have hw := collectWipLoop_mem_isWip base l _ hmem
    rw [hnotwip] at hw
    exact Bool.false_ne_true hw

/-- C9 amended witness: with prefix `[WIP]` the fallback message starts
with `[WIP]`, is classified non-WIP, and is not in the run scanned from a
history headed by that commit. -/
theorem custom_marker_commits_are_boundaries_witness :
    charsLead ("[WIP]" : String).data (autoCommitFallbackMessage "[WIP]" "fix bug" "2024-01-01").data = true ∧
    isWip ⟨"y1", autoCommitFallbackMessage "[WIP]" "fix bug" "2024-01-01", "2024-01-02"⟩ = false ∧
    ∀ (base : Option Commit) (l : List Commit),
      (⟨"y1", autoCommitFallbackMessage "[WIP]" "fix bug" "2024-01-01", "2024-01-02"⟩ : Commit)
        ∉ collectWipLoop base l :=
  custom_marker_commits_are_boundaries "[WIP]" "fix bug" "2024-01-01" "y1" "2024-01-02" (by decide)

/-! ### Claim C10 -/

theorem splitChar_append (sep : Char) :
    ∀ (l₁ l₂ : List Char),
      splitChar sep (l₁ ++ sep :: l₂) = splitChar sep l₁ ++ splitChar sep l₂ := by
  intro l₁
  induction l₁ with
  | nil => intro l₂; simp [splitChar]
  | cons c rest ih =>
    intro l₂
    by_cases h : c = sep
    · simp [splitChar, h, ih]
    · simp only [List.cons_append, splitChar, if_neg h]
      rw [show rest.append (sep :: l₂) = rest ++ sep :: l₂ from rfl, ih l₂]
      cases hs : splitChar sep rest with
      | nil => exact absurd hs (splitChar_ne_nil sep rest)
      | cons g gs => simp

theorem splitChar_of_not_mem (sep : Char) :
    ∀ (l : List Char), sep ∉ l → splitChar sep l = [l] := by
  intro l
  induction l with
  | nil => intro _; rfl
  | cons c rest ih =>
    intro h
    have hc : c ≠ sep := fun he => h (by simp [he])
    rw [show splitChar sep (c :: rest)
        = (match splitChar sep rest with
           | [] => [[c]]
           | g :: gs => (c :: g) :: gs) from by simp [splitChar, hc],
      ih (fun hm => h (List.mem_cons_of_mem c hm))]

theorem joinChar_splitChar (sep : Char) :
    ∀ (l : List Char), joinChar sep (splitChar sep l) = l := by
  intro l
  induction l with
  | nil => rfl
  | cons c rest ih =>
    by_cases h : c = sep
    · subst h
      simp only [splitChar, if_pos rfl]
      cases hs : splitChar c rest with
      | nil => exact absurd hs (splitChar_ne_nil c rest)
      | cons g gs =>
        rw [hs] at ih
        simp [joinChar, ih]
    · simp only [splitChar, if_neg h]
      cases hs : splitChar sep rest with
      | nil => exact absurd hs (splitChar_ne_nil sep rest)
      | cons g gs =>
        rw [hs] at ih
        cases gs with
        | nil =>
          simp only [joinChar] at ih ⊢
          rw [ih]
        | cons g2 gs2 =>
          simp only [joinChar] at ih ⊢
          simp [ih]

/-- C10: rendering a commit in the `hash|subject|date` log format and
parsing it back recovers the commit exactly, even when the subject
contains `|` characters — provided the hash and the date are `|`-free
and all three fields are trim-invariant (git's `%H`, `%s`, `%ai` always
are). -/
theorem log_line_roundtrip (c : Commit)
    (hh : '|' ∉ c.hash.data) (hd : '|' ∉ c.date.data)
    (hht : trimChars c.hash.data = c.hash.data)
    (hmt : trimChars c.message.data = c.message.data)
    (hdt : trimChars c.date.data = c.date.data) :
    parseLogLine (renderLogLine c) = some c := by
  have h1 : splitChar '|' c.hash.data = [c.hash.data] := splitChar_of_not_mem '|' _ hh
  have h2 : splitChar '|' c.date.data = [c.date.data] := splitChar_of_not_mem '|' _ hd
  have hsplit : splitChar '|' (renderLogLine c)
      = c.hash.data :: (splitChar '|' c.message.data ++ [c.date.data]) := by
    rw [renderLogLine, splitChar_append, splitChar_append, h1, h2]
    simp
  obtain ⟨g, gs, hgs⟩ : ∃ g gs, splitChar '|' c.message.data = g :: gs := by
    cases hs : splitChar '|' c.message.data with
    | nil => exact absurd hs (splitChar_ne_nil '|' _)
    | cons g gs => exact ⟨g, gs, rfl⟩
  rw [hgs] at hsplit
  simp only [parseLogLine, hsplit, List.cons_append]
  have hshape : g :: (gs ++ [c.date.data]) = (g :: gs) ++ [c.date.data] := by simp
  rw [hshape, List.dropLast_concat, ← hgs, joinChar_splitChar]
  simp [hht, hmt, hdt]

/-- C10 witness: a subject containing `|` survives the round trip. -/
theorem log_line_roundtrip_witness :
    parseLogLine (renderLogLine ⟨"abc123", "merge a|b then c", "2024-01-02 10:00:00 +0800"⟩)
      = some ⟨"abc123", "merge a|b then c", "2024-01-02 10:00:00 +0800"⟩ :=
  log_line_roundtrip ⟨"abc123", "merge a|b then c", "2024-01-02 10:00:00 +0800"⟩
    (by decide) (by decide) (by decide) (by decide) (by decide)
